import Mathlib

/-!
Verification development for the heads-up poker engine in `game.js` of the
jilaoda-poker repository.  The definitions below are a shallow embedding of
the source classes `Card`, `Deck`, `HandEvaluator` and the single-player
betting state machine of class `Game` (methods `startHand`, `postBlind`,
`nextPhase`, `playerAction`, `aiTurn`, `showdown`, `endHand`,
`updateButtons`).  JavaScript numbers are modelled as `ℚ` where real
division occurs (the showdown pot split) and as `ℕ`/`ℤ` elsewhere;
in-place array mutation is modelled by returning the final contents of the
mutated array; `Array.prototype.pop()` on an empty array is modelled by
`Option.none` (JavaScript `undefined`).
-/

namespace JPoker

attribute [local semireducible] Rat.sub Rat.add Rat.mul Rat.inv

/-- Suits of a playing card, mirroring the source strings h, d, c, s. -/
inductive Suit
  | h
  | d
  | c
  | s
deriving DecidableEq, Repr

/-- A playing card: suit and a rank in 2..14 (14 is the Ace), as built by
`Deck.reset` in the source. -/
structure Card where
  suit : Suit
  rank : ℕ
deriving DecidableEq, Repr

/-- `Deck.deal` of the source: `return this.cards.pop();`.
`pop` removes and returns the last element of the array; on an empty array
it returns `undefined` (modelled `none`) and leaves the array empty. -/
def Deck.deal (cards : List Card) : Option Card × List Card :=
  (cards.getLast?, cards.dropLast)

/-- The comparator `(a, b) => b.rank - a.rank` used by
`HandEvaluator.evaluate` to sort cards by rank descending. -/
def cardGE (a b : Card) : Prop := b.rank ≤ a.rank

instance : DecidableRel cardGE := fun a b => Nat.decLe b.rank a.rank

instance : IsTotal Card cardGE := ⟨fun a b => Nat.le_total b.rank a.rank⟩

instance : IsTrans Card cardGE := ⟨fun _ _ _ hab hbc => Nat.le_trans hbc hab⟩

/-- `cards.sort((a, b) => b.rank - a.rank)`: a stable sort of the cards by
rank descending (ECMAScript `Array.prototype.sort` is stable). -/
def sortCards (cs : List Card) : List Card := List.insertionSort cardGE cs

/-- The score object `{ rank, value, name }` returned by
`HandEvaluator.evaluate`.  `rank` is `ℤ` because the empty-input sentinel
is `-1`. -/
structure Score where
  rank : ℤ
  value : ℕ
  name : String
deriving DecidableEq, Repr

/-- Number of cards of suit `su`, as accumulated in the `suits` counter
object of `HandEvaluator.isFlush`. -/
def suitCount (cs : List Card) (su : Suit) : ℕ :=
  (cs.filter fun c => c.suit = su).length

/-- `flushCards[0].rank` of `isFlush`: the suit-`su` cards are filtered,
sorted by rank descending, and the first rank is taken (0 if none). -/
def headRank : List Card → ℕ
  | [] => 0
  | c :: _ => c.rank

/-- Rank of the top card of suit `su` after the filter-and-sort of
`isFlush`. -/
def flushValue (cs : List Card) (su : Suit) : ℕ :=
  headRank (sortCards (cs.filter fun c => c.suit = su))

/-- `HandEvaluator.isFlush`: counts cards per suit and, for the first suit
(in object-key order h, d, c, s) holding at least 5 cards, returns the
highest rank of that suit; otherwise 0. -/
def isFlush (cs : List Card) : ℕ :=
  if 5 ≤ suitCount cs Suit.h then flushValue cs Suit.h
  else if 5 ≤ suitCount cs Suit.d then flushValue cs Suit.d
  else if 5 ≤ suitCount cs Suit.c then flushValue cs Suit.c
  else if 5 ≤ suitCount cs Suit.s then flushValue cs Suit.s
  else 0

/-- The distinct ranks of the cards sorted descending:
`[...new Set(cards.map(c => c.rank))].sort((a, b) => b - a)`. -/
def uniqueRanksDesc (cs : List Card) : List ℕ :=
  List.insertionSort (· ≥ ·) ((cs.map Card.rank).dedup)

/-- `if (uniqueRanks.includes(14)) uniqueRanks.push(1);` — the Ace also
counts as rank 1 for the wheel straight. -/
def withAceLow (l : List ℕ) : List ℕ :=
  if 14 ∈ l then l ++ [1] else l

/-- The scan loop of `isStraight`: over the strictly descending rank list,
find the first index `i` with `u[i] - u[i+4] === 4` and return `u[i]`;
0 when no window qualifies. -/
def scanStraight : List ℕ → ℕ
  | [] => 0
  | a :: rest =>
    match rest.get? 3 with
    | some e => if a = e + 4 then a else scanStraight rest
    | none => 0

/-- `HandEvaluator.isStraight`: top rank of the highest five-rank run
among the distinct ranks (Ace low handled), 0 if none. -/
def isStraight (cs : List Card) : ℕ :=
  scanStraight (withAceLow (uniqueRanksDesc cs))

/-- One entry `{ rank, count }` of the grouping built by
`HandEvaluator.groupCards`. -/
structure RankGroup where
  rank : ℕ
  count : ℕ
deriving DecidableEq, Repr

/-- The comparator `(a, b) => b.count - a.count || b.rank - a.rank` of
`groupCards`: count descending, then rank descending. -/
def groupGE (g1 g2 : RankGroup) : Prop :=
  g2.count < g1.count ∨ (g1.count = g2.count ∧ g2.rank ≤ g1.rank)

instance : DecidableRel groupGE := fun g1 g2 =>
  inferInstanceAs (Decidable (g2.count < g1.count ∨ (g1.count = g2.count ∧ g2.rank ≤ g1.rank)))

instance : IsTotal RankGroup groupGE := by
  constructor
  intro a b
  rcases Nat.lt_trichotomy a.count b.count with hlt | heq | hgt
  · exact Or.inr (Or.inl hlt)
  · rcases Nat.le_total b.rank a.rank with hr | hr
    · exact Or.inl (Or.inr ⟨heq, hr⟩)
    · exact Or.inr (Or.inr ⟨heq.symm, hr⟩)
  · exact Or.inl (Or.inl hgt)

instance : IsTrans RankGroup groupGE := by
  constructor
  intro a b c hab hbc
  rcases hab with h1 | ⟨e1, r1⟩
  · rcases hbc with h2 | ⟨e2, _⟩
    · exact Or.inl (h2.trans h1)
    · exact Or.inl (e2 ▸ h1)
  · rcases hbc with h2 | ⟨e2, r2⟩
    · exact Or.inl (e1 ▸ h2)
    · exact Or.inr ⟨e1.trans e2, r2.trans r1⟩

instance : IsAntisymm RankGroup groupGE := by
  constructor
  intro a b hab hba
  obtain ⟨ar, ac⟩ := a
  obtain ⟨br, bc⟩ := b
  simp only [groupGE] at hab hba
  simp only [RankGroup.mk.injEq]
  omega

/-- The group list of `groupCards` before its final sort: JavaScript
object iteration visits the integer-like rank keys in ascending numeric
order, each paired with its occurrence count. -/
def groupRanksPre (rs : List ℕ) : List RankGroup :=
  (List.insertionSort (· ≤ ·) rs.dedup).map fun r => ⟨r, rs.count r⟩

/-- `HandEvaluator.groupCards`: occurrence counts per rank, sorted by
count descending then rank descending. -/
def groupCards (cs : List Card) : List RankGroup :=
  List.insertionSort groupGE (groupRanksPre (cs.map Card.rank))

/-- `HandEvaluator.getKicker`: the rank of the first card (in the given
order) whose rank is not excluded; 0 if all are excluded. -/
def getKicker : List Card → List ℕ → ℕ
  | [], _ => 0
  | c :: rest, ex => if c.rank ∈ ex then getKicker rest ex else c.rank

/-- `groups.filter(g => g.count === 4)` of `evaluate`. -/
def quadsOf (l : List Card) : List RankGroup :=
  (groupCards l).filter fun g => g.count = 4

/-- `groups.filter(g => g.count === 3)` of `evaluate`. -/
def tripsOf (l : List Card) : List RankGroup :=
  (groupCards l).filter fun g => g.count = 3

/-- `groups.filter(g => g.count === 2)` of `evaluate`. -/
def pairsOf (l : List Card) : List RankGroup :=
  (groupCards l).filter fun g => g.count = 2

/-- `gs[0].rank` — the rank of the first group (JavaScript index access;
the source only reads it on a non-empty list). -/
def headGroupRank : List RankGroup → ℕ
  | [] => 0
  | g :: _ => g.rank

/-- `gs[1].rank` — the rank of the second group. -/
def secondGroupRank : List RankGroup → ℕ
  | _ :: g :: _ => g.rank
  | _ => 0

/-- The body of `HandEvaluator.evaluate` on the already-sorted card list
(everything after `cards.sort(...)`), with the source's branch order:
straight flush, quads, full house, flush, straight, trips, two pair,
pair, high card. -/
def evalSorted (sorted : List Card) : Score :=
  if isFlush sorted ≠ 0 ∧ isStraight sorted ≠ 0 then ⟨8, isStraight sorted, "同花顺"⟩
  else if 0 < (quadsOf sorted).length then
    ⟨7, headGroupRank (quadsOf sorted) * 100 +
        getKicker sorted [headGroupRank (quadsOf sorted)], "四条"⟩
  else if 0 < (tripsOf sorted).length ∧ 0 < (pairsOf sorted).length then
    ⟨6, headGroupRank (tripsOf sorted) * 100 + headGroupRank (pairsOf sorted), "葫芦"⟩
  else if isFlush sorted ≠ 0 then ⟨5, isFlush sorted, "同花"⟩
  else if isStraight sorted ≠ 0 then ⟨4, isStraight sorted, "顺子"⟩
  else if 0 < (tripsOf sorted).length then
    ⟨3, headGroupRank (tripsOf sorted) * 100 +
        getKicker sorted [headGroupRank (tripsOf sorted)], "三条"⟩
  else if 2 ≤ (pairsOf sorted).length then
    ⟨2, headGroupRank (pairsOf sorted) * 100 + secondGroupRank (pairsOf sorted) * 10 +
        getKicker sorted [headGroupRank (pairsOf sorted), secondGroupRank (pairsOf sorted)],
        "两对"⟩
  else if (pairsOf sorted).length = 1 then
    ⟨1, headGroupRank (pairsOf sorted) * 100 +
        getKicker sorted [headGroupRank (pairsOf sorted)], "一对"⟩
  else ⟨0, getKicker sorted [], "高牌"⟩

/-- `HandEvaluator.evaluate`: sentinel on the empty list, otherwise sort
by rank descending and score. -/
def evaluate (cards : List Card) : Score :=
  if cards = [] then ⟨-1, 0, "空"⟩ else evalSorted (sortCards cards)

/-- `evaluate` together with the caller-visible final contents of its
argument array: `cards.sort(...)` mutates the array in place, while the
early return on an empty input skips the sort. -/
def evaluateCall (cards : List Card) : Score × List Card :=
  if cards = [] then (evaluate cards, cards) else (evaluate cards, sortCards cards)

/-- The phases of a hand, `this.phase` of class `Game`. -/
inductive Phase
  | preflop
  | flop
  | turn
  | river
  | showdown
deriving DecidableEq, Repr

/-- The single-player game state of class `Game`: chip stacks, pot, the
per-round bets, the table bet, phase, deck and dealt cards, whose turn it
is, and whether the hand has been settled (`endHand`/`showdown` re-enable
the start button).  Chip quantities are `ℚ` because the source's showdown
split uses JavaScript real division (`this.pot / 2`). -/
structure GState where
  playerChips : ℚ
  aiChips : ℚ
  pot : ℚ
  currentBet : ℚ
  playerBet : ℚ
  aiBet : ℚ
  phase : Phase
  deck : List Card
  communityCards : List Card
  playerCards : List Card
  aiCards : List Card
  isPlayerTurn : Bool
  handOver : Bool
deriving DecidableEq, Repr

/-- The two seats, for `endHand(winner)`. -/
inductive Winner
  | player
  | ai
deriving DecidableEq, Repr

/-- `Game.endHand`: the non-folded seat takes the whole pot, the pot is
cleared, and the start button is re-enabled (the hand is over).  No card
state is touched and no evaluation happens. -/
def endHand (winner : Winner) (s : GState) : GState :=
  match winner with
  | Winner.player => { s with
                       playerChips := s.playerChips + s.pot
                       pot := 0
                       handOver := true }
  | Winner.ai => { s with
                   aiChips := s.aiChips + s.pot
                   pot := 0
                   handOver := true }

/-- `Game.showdown`: compare `getBestHand` of each seat
(`evaluate([...holeCards, ...communityCards])`), first by `rank` then by
`value`; the winner takes the pot, a full tie splits it by real division
`this.pot / 2`; then the pot is cleared and the hand is over. -/
def showdownSettle (s : GState) : GState :=
  let playerBest := evaluate (s.playerCards ++ s.communityCards)
  let aiBest := evaluate (s.aiCards ++ s.communityCards)
  let s' :=
    if playerBest.rank > aiBest.rank then
      { s with playerChips := s.playerChips + s.pot }
    else if aiBest.rank > playerBest.rank then
      { s with aiChips := s.aiChips + s.pot }
    else if playerBest.value > aiBest.value then
      { s with playerChips := s.playerChips + s.pot }
    else if aiBest.value > playerBest.value then
      { s with aiChips := s.aiChips + s.pot }
    else
      { s with
        playerChips := s.playerChips + s.pot / 2
        aiChips := s.aiChips + s.pot / 2 }
  { s' with
    pot := 0
    handOver := true }

/-- `Game.nextPhase`: clear both per-round bets and the table bet, then
deal 3 community cards (flop), 1 (turn), 1 (river), or run the showdown
after the river.  `communityCards.push(this.deck.deal(), ...)` evaluates
its arguments left to right, each popping from the end of the deck. -/
def nextPhase (s : GState) : GState :=
  let s0 := { s with
              playerBet := 0
              aiBet := 0
              currentBet := 0 }
  match s0.phase with
  | Phase.preflop =>
    let r1 := Deck.deal s0.deck
    let r2 := Deck.deal r1.2
    let r3 := Deck.deal r2.2
    { s0 with
      phase := Phase.flop
      deck := r3.2
      communityCards := s0.communityCards ++ r1.1.toList ++ r2.1.toList ++ r3.1.toList
      isPlayerTurn := true }
  | Phase.flop =>
    let r1 := Deck.deal s0.deck
    { s0 with
      phase := Phase.turn
      deck := r1.2
      communityCards := s0.communityCards ++ r1.1.toList
      isPlayerTurn := true }
  | Phase.turn =>
    let r1 := Deck.deal s0.deck
    { s0 with
      phase := Phase.river
      deck := r1.2
      communityCards := s0.communityCards ++ r1.1.toList
      isPlayerTurn := true }
  | Phase.river => showdownSettle { s0 with phase := Phase.showdown }
  | Phase.showdown => { s0 with isPlayerTurn := true }

/-- The player actions accepted by `Game.playerAction`; `raise r` carries
the integer raise-to target read from the slider (`parseInt`). -/
inductive PAct
  | fold
  | check
  | call
  | raise (r : ℤ)

/-- `Game.playerAction` (single-player branch): rejected outright when it
is not the player's turn; `fold` ends the hand for the AI; `check` is
rejected while a bet is owed; `call` pays the difference capped at the
stack (implicit all-in); `raise` to a target is rejected only when the
stack cannot cover its cost.  After a call, or a check with matched bets,
the round closes and the phase advances. -/
def playerAction (a : PAct) (s : GState) : GState :=
  if s.isPlayerTurn then
    match a with
    | PAct.fold => endHand Winner.ai s
    | PAct.check =>
      if s.currentBet > s.playerBet then s
      else
        let s' := { s with isPlayerTurn := false }
        if s'.aiBet = s'.playerBet then nextPhase s' else s'
    | PAct.call =>
      let c := s.currentBet - s.playerBet
      let s' :=
        if c > s.playerChips then
          { s with
            pot := s.pot + s.playerChips
            playerBet := s.playerBet + s.playerChips
            playerChips := 0
            isPlayerTurn := false }
        else
          { s with
            playerChips := s.playerChips - c
            pot := s.pot + c
            playerBet := s.playerBet + c
            isPlayerTurn := false }
      if s'.playerBet = s'.aiBet then nextPhase s' else s'
    | PAct.raise r =>
      let cost : ℚ := (r : ℚ) - s.playerBet
      if cost > s.playerChips then s
      else
        { s with
          playerChips := s.playerChips - cost
          pot := s.pot + cost
          playerBet := (r : ℚ)
          currentBet := (r : ℚ)
          isPlayerTurn := false }
  else s

/-- `Game.aiTurn`: no-op at showdown; facing a bet the AI calls when its
hand rank is at least 1 or the random draw exceeds 0.3 and folds
otherwise; not facing a bet it raises by 20 when its rank is at least 2
and the draw exceeds 0.5, and checks otherwise.  AI calls and raises are
not stack-checked.  After the action the turn passes back and the round
closes when the bets are matched and the action was not a raise. -/
def aiStep (rand : ℚ) (s : GState) : GState :=
  if s.phase = Phase.showdown then s
  else
    let strength := (evaluate (s.aiCards ++ s.communityCards)).rank
    if s.currentBet > s.aiBet then
      if 1 ≤ strength ∨ rand > 3 / 10 then
        let c := s.currentBet - s.aiBet
        let s' := { s with
                    aiChips := s.aiChips - c
                    pot := s.pot + c
                    aiBet := s.aiBet + c
                    isPlayerTurn := true }
        if s'.playerBet = s'.aiBet then nextPhase s' else s'
      else endHand Winner.player s
    else
      if 2 ≤ strength ∧ rand > 1 / 2 then
        let t := (s.currentBet - s.aiBet) + 20
        { s with
          aiChips := s.aiChips - t
          pot := s.pot + t
          aiBet := s.aiBet + t
          currentBet := s.aiBet + t
          isPlayerTurn := true }
      else
        let s' := { s with isPlayerTurn := true }
        if s'.playerBet = s'.aiBet then nextPhase s' else s'

/-- `Game.startHand` on a freshly reset (shuffled) deck `d` with player
stack `p0`: deal two hole cards to the player then two to the AI (all
popped from the end of the deck), clear pot and community cards, post the
blinds 10 (player) and 20 (AI, from its fixed 1000000 stack) via
`postBlind` (which caps a blind at the stack), set the table bet to 20,
and give the player the first turn. -/
def startHand (p0 : ℚ) (d : List Card) : GState :=
  let r1 := Deck.deal d
  let r2 := Deck.deal r1.2
  let r3 := Deck.deal r2.2
  let r4 := Deck.deal r3.2
  let pBlind := min p0 10
  let aBlind := min (1000000 : ℚ) 20
  { playerChips := p0 - pBlind
    aiChips := 1000000 - aBlind
    pot := pBlind + aBlind
    currentBet := 20
    playerBet := pBlind
    aiBet := aBlind
    phase := Phase.preflop
    deck := r4.2
    communityCards := []
    playerCards := r1.1.toList ++ r2.1.toList
    aiCards := r3.1.toList ++ r4.1.toList
    isPlayerTurn := true
    handOver := false }

/-- The raise slider's minimum in `Game.updateButtons`:
`(this.currentBet > 0) ? (this.currentBet + 20) : 20`. -/
def sliderMin (s : GState) : ℚ :=
  if s.currentBet > 0 then s.currentBet + 20 else 20

/-- The raise slider's maximum in `Game.updateButtons`:
`this.playerBet + this.playerChips`. -/
def sliderMax (s : GState) : ℚ := s.playerBet + s.playerChips

/-- Which player actions the UI lets through (`updateButtons`): fold
whenever it is the player's turn; check only with no bet owed; call only
with a bet owed; raise only for a slider value between `sliderMin` and
`sliderMax`. -/
def legalP : PAct → GState → Prop
  | PAct.fold, s => s.isPlayerTurn = true
  | PAct.check, s => s.isPlayerTurn = true ∧ s.currentBet = s.playerBet
  | PAct.call, s => s.isPlayerTurn = true ∧ s.currentBet ≠ s.playerBet
  | PAct.raise r, s =>
    s.isPlayerTurn = true ∧ sliderMin s ≤ (r : ℚ) ∧ (r : ℚ) ≤ sliderMax s

/-- One engine step during a live hand: either the player submits a
UI-enabled action, or the scheduled AI turn runs (with its uniform random
draw in `[0, 1)`) while it is not the player's turn. -/
inductive Step : GState → GState → Prop
  | player : ∀ (a : PAct) (s : GState), legalP a s → s.handOver = false →
      Step s (playerAction a s)
  | opp : ∀ (rand : ℚ) (s : GState), s.isPlayerTurn = false → s.handOver = false →
      0 ≤ rand → rand < 1 → Step s (aiStep rand s)

/-- States reachable from `s0` by engine steps. -/
def Reaches (s0 s : GState) : Prop := Relation.ReflTransGen Step s0 s

/-- A rational that is an integer (a whole number of chips). -/
def IsIntQ (x : ℚ) : Prop := ∃ n : ℤ, x = (n : ℚ)

/-- Rank of the primary four-of-a-kind group used by `evaluate`'s quads
branch (`quads[0].rank` over the rank-sorted cards). -/
def quadRank (cs : List Card) : ℕ := headGroupRank (quadsOf (sortCards cs))

/-- Rank of the primary three-of-a-kind group used by `evaluate`'s trips
branch. -/
def tripRank (cs : List Card) : ℕ := headGroupRank (tripsOf (sortCards cs))

/-- Rank of the highest pair group used by `evaluate`'s pair branches. -/
def topPairRank (cs : List Card) : ℕ := headGroupRank (pairsOf (sortCards cs))

/-- Rank of the second pair group used by `evaluate`'s two-pair branch. -/
def secondPairRank (cs : List Card) : ℕ := secondGroupRank (pairsOf (sortCards cs))

/-- Modelled from the spec: the canonical comparison key of a paired-type
poker hand — its card ranks listed with multiplicity, ordered by
(multiplicity descending, rank descending); canonical poker compares two
same-category hands lexicographically on this key. -/
def canonicalKey (cs : List Card) : List ℕ :=
  (groupCards cs).flatMap fun g => List.replicate g.count g.rank

/-- Lexicographic strictly-greater on rank lists (a longer list beats its
proper prefix). -/
def lexGtRanks : List ℕ → List ℕ → Bool
  | a :: as, b :: bs => if b < a then true else if a < b then false else lexGtRanks as bs
  | _ :: _, [] => true
  | _, _ => false

/-- Modelled from the claim: five cards of one suit. -/
def sameSuit5 (cs : List Card) : Bool :=
  match cs with
  | c :: rest => rest.all fun x => x.suit == c.suit
  | [] => true

/-- Modelled from the claim: five ranks forming an unbroken run (Ace high
or low), i.e. an actual five-card straight. -/
def isRunFive (rs : List ℕ) : Bool :=
  match List.insertionSort (· ≥ ·) rs with
  | [a, b, c, d, e] =>
    (a == b + 1 && b == c + 1 && c == d + 1 && d == e + 1) ||
      (a == 14 && b == 5 && c == 4 && d == 3 && e == 2)
  | _ => false

/-- Modelled from the claim: some five of the cards form a genuine
straight flush (same suit, ranks in an unbroken run). -/
def hasTrueStraightFlush (cs : List Card) : Bool :=
  (cs.sublistsLen 5).any fun h => sameSuit5 h && isRunFive (h.map Card.rank)

/-- A fixed nine-card (already shuffled) deck used for the concrete
executions below; `startHand` deals from its tail end. -/
def deckA : List Card :=
  [⟨Suit.c, 9⟩, ⟨Suit.c, 8⟩, ⟨Suit.c, 7⟩, ⟨Suit.c, 6⟩, ⟨Suit.c, 5⟩,
   ⟨Suit.s, 10⟩, ⟨Suit.d, 11⟩, ⟨Suit.h, 4⟩, ⟨Suit.h, 12⟩]

/-- The two-pair hand A A 2 2 3 (aces up). -/
def twoPairAces : List Card :=
  [⟨Suit.s, 14⟩, ⟨Suit.h, 14⟩, ⟨Suit.s, 2⟩, ⟨Suit.h, 2⟩, ⟨Suit.d, 3⟩]

/-- The two-pair hand K K Q Q A (kings up, ace kicker). -/
def twoPairKings : List Card :=
  [⟨Suit.s, 13⟩, ⟨Suit.h, 13⟩, ⟨Suit.s, 12⟩, ⟨Suit.h, 12⟩, ⟨Suit.d, 14⟩]

/-- The one-pair hand 9 9 A 7 2. -/
def pairNinesLow : List Card :=
  [⟨Suit.s, 9⟩, ⟨Suit.h, 9⟩, ⟨Suit.s, 14⟩, ⟨Suit.d, 7⟩, ⟨Suit.c, 2⟩]

/-- The one-pair hand 9 9 A 8 3: better than `pairNinesLow` on the second
kicker. -/
def pairNinesHigh : List Card :=
  [⟨Suit.c, 9⟩, ⟨Suit.d, 9⟩, ⟨Suit.h, 14⟩, ⟨Suit.s, 8⟩, ⟨Suit.h, 3⟩]

/-- Seven cards holding a five-card heart flush (2 3 4 5 9 of hearts) and
a five-rank run 3-4-5-6-7 (via 6♦ and 7♠), but no five cards forming a
genuine straight flush. -/
def falseStraightFlush : List Card :=
  [⟨Suit.h, 9⟩, ⟨Suit.h, 5⟩, ⟨Suit.h, 4⟩, ⟨Suit.h, 3⟩, ⟨Suit.h, 2⟩,
   ⟨Suit.s, 7⟩, ⟨Suit.d, 6⟩]

/-- The state invariant maintained by the betting engine during a hand:
non-negative player stack, pot and bets, the table bet is the larger
committed bet, all chip quantities are whole numbers, and while the hand
is live the pot exceeds the committed bets by an even amount (each closed
round contributes a matched — hence even — total). -/
def Inv (s : GState) : Prop :=
  0 ≤ s.playerChips ∧ 0 ≤ s.pot ∧ 0 ≤ s.playerBet ∧ 0 ≤ s.aiBet ∧
  s.currentBet = max s.playerBet s.aiBet ∧
  IsIntQ s.playerChips ∧ IsIntQ s.aiChips ∧ IsIntQ s.pot ∧
  IsIntQ s.currentBet ∧ IsIntQ s.playerBet ∧ IsIntQ s.aiBet ∧
  (s.handOver = false → ∃ k : ℤ, s.pot - s.playerBet - s.aiBet = 2 * (k : ℚ))

/-! ## Theorems -/

/-- C10: flush and straight detection are independent scans of the whole
input and their conjunction is scored as a straight flush: the concrete
seven-card input `falseStraightFlush` has five hearts and the rank run
3-4-5-6-7, no five of its cards form a genuine straight flush, and yet
`evaluate` returns category 8 with tiebreak 7, the top rank of the
highest straight window. -/
theorem c10_conflated_straight_flush :
    evaluate falseStraightFlush = ⟨8, 7, "同花顺"⟩ ∧
    5 ≤ suitCount falseStraightFlush Suit.h ∧
    isStraight falseStraightFlush = 7 ∧
    hasTrueStraightFlush falseStraightFlush = false := by
  refine ⟨by decide, by decide, by decide, by decide⟩

/-- C7 counterexample: `Deck.deal` on the empty deck does not fail fast;
`pop()` returns `undefined` (modelled `none`) as a normal value and
leaves the deck unchanged. -/
theorem c7_counterexample : Deck.deal ([] : List Card) = (none, []) := rfl

/-- C7 (amended): `deal` on a non-empty deck removes and returns the card
at the drawing end (the array's last element); on an empty deck it
returns `undefined` (`none`) with the deck still empty, rather than
signalling a fatal error. -/
theorem c7_deal_amended :
    (∀ (d : List Card) (c : Card), Deck.deal (d ++ [c]) = (some c, d)) ∧
    Deck.deal ([] : List Card) = (none, []) := by
  refine ⟨fun d c => ?_, rfl⟩
  simp [Deck.deal]

/-- C9 counterexample: `evaluate` sorts its argument array in place, so
the caller's card list does not keep its order: on `[2♥, 3♥]` the array
the caller holds afterwards is `[3♥, 2♥]`. -/
theorem c9_counterexample :
    (evaluateCall [⟨Suit.h, 2⟩, ⟨Suit.h, 3⟩]).2 ≠ [⟨Suit.h, 2⟩, ⟨Suit.h, 3⟩] := by
  decide

/-- C9 (amended): `evaluate` throws no exception (it is a total
function), its score is the pure `evaluate` of the input, and the
caller's array afterwards holds the same cards as a multiset — but
re-ordered: it becomes the rank-descending sort of the input (the
in-place `cards.sort`), the input order itself not being preserved. -/
theorem c9_mutation_amended :
    ∀ cs : List Card,
      List.Perm (evaluateCall cs).2 cs ∧
      List.Sorted cardGE (evaluateCall cs).2 ∧
      (evaluateCall cs).1 = evaluate cs := by
  intro cs
  unfold evaluateCall
  by_cases h : cs = []
  · subst h
    exact ⟨List.Perm.refl _, List.sorted_nil, rfl⟩
  · rw [if_neg h]
    exact ⟨List.perm_insertionSort _ _, List.sorted_insertionSort _ _, rfl⟩

/-- C5: illegal actions are rejected synchronously with no state
mutation: any action submitted while it is not the player's turn returns
the state unchanged, and a check submitted while the player's committed
bet is below the table bet returns the state unchanged. -/
theorem c5_illegal_no_mutation :
    (∀ (a : PAct) (s : GState), s.isPlayerTurn = false → playerAction a s = s) ∧
    (∀ s : GState, s.isPlayerTurn = true → s.playerBet < s.currentBet →
      playerAction PAct.check s = s) := by
  constructor
  · intro a s h
    simp [playerAction, h]
  · intro s h1 h2
    simp [playerAction, h1, if_pos h2]

/-- C5 witness: concrete instances — a call submitted out of turn and a
check submitted while owing 10 both leave the state unchanged. -/
theorem c5_witness :
    playerAction PAct.call { startHand 1000 deckA with isPlayerTurn := false } =
      { startHand 1000 deckA with isPlayerTurn := false } ∧
    playerAction PAct.check (startHand 1000 deckA) = startHand 1000 deckA := by
  exact ⟨c5_illegal_no_mutation.1 PAct.call _ rfl,
    c5_illegal_no_mutation.2 _ rfl (by decide)⟩

/-- C4: a fold ends the hand immediately at any phase: the entire pot is
credited to the other seat's stack, the pot becomes 0, the community
cards and deck are untouched (no further dealing, no evaluation of the
folding hand), and the hand is over.  Stated for the player folding via
`playerAction` and for the opponent folding in `aiTurn` (which folds
exactly when it faces a bet with a rank-0 hand and a low draw). -/
theorem c4_fold_ends_hand :
    (∀ s : GState, s.isPlayerTurn = true →
      (playerAction PAct.fold s).aiChips = s.aiChips + s.pot ∧
      (playerAction PAct.fold s).playerChips = s.playerChips ∧
      (playerAction PAct.fold s).pot = 0 ∧
      (playerAction PAct.fold s).communityCards = s.communityCards ∧
      (playerAction PAct.fold s).deck = s.deck ∧
      (playerAction PAct.fold s).phase = s.phase ∧
      (playerAction PAct.fold s).handOver = true) ∧
    (∀ (rand : ℚ) (s : GState), s.phase ≠ Phase.showdown →
      s.aiBet < s.currentBet →
      (evaluate (s.aiCards ++ s.communityCards)).rank < 1 →
      rand ≤ 3 / 10 →
      (aiStep rand s).playerChips = s.playerChips + s.pot ∧
      (aiStep rand s).aiChips = s.aiChips ∧
      (aiStep rand s).pot = 0 ∧
      (aiStep rand s).communityCards = s.communityCards ∧
      (aiStep rand s).deck = s.deck ∧
      (aiStep rand s).phase = s.phase ∧
      (aiStep rand s).handOver = true) := by
  constructor
  · intro s h
    simp [playerAction, h, endHand]
  · intro rand s hph hfacing hstr hrand
    have h1 : ¬(1 ≤ (evaluate (s.aiCards ++ s.communityCards)).rank ∨ rand > 3 / 10) := by
      push_neg
      exact ⟨by omega, hrand⟩
    simp [aiStep, hph, if_pos hfacing, if_neg h1, endHand]

/-- C4 witness: after the player raises to 40 preflop, the opponent holds
jack-ten high (rank 0) and folds on a 0 draw — the player collects the
whole pot with community cards untouched; and a direct player fold hands
the 30-chip blind pot to the opponent. -/
theorem c4_witness :
    (playerAction PAct.fold (startHand 1000 deckA)).pot = 0 ∧
    (playerAction PAct.fold (startHand 1000 deckA)).aiChips =
      (startHand 1000 deckA).aiChips + (startHand 1000 deckA).pot ∧
    (aiStep 0 (playerAction (PAct.raise 40) (startHand 1000 deckA))).playerChips =
      (playerAction (PAct.raise 40) (startHand 1000 deckA)).playerChips +
        (playerAction (PAct.raise 40) (startHand 1000 deckA)).pot ∧
    (aiStep 0 (playerAction (PAct.raise 40) (startHand 1000 deckA))).communityCards =
      (playerAction (PAct.raise 40) (startHand 1000 deckA)).communityCards := by
  refine ⟨(c4_fold_ends_hand.1 _ rfl).2.2.1, (c4_fold_ends_hand.1 _ rfl).1, ?_, ?_⟩
  · exact (c4_fold_ends_hand.2 0 _ (by decide) (by decide) (by decide) (by norm_num)).1
  · exact (c4_fold_ends_hand.2 0 _ (by decide) (by decide) (by decide)
      (by norm_num)).2.2.2.1

/-- C3 counterexample: preflop with table bet 20, the raise-to target 25
is below `currentBet + 20 = 40`, yet the engine applies it — the pot
grows from 30 to 45 — instead of rejecting it with no state change. -/
theorem c3_counterexample :
    ((25 : ℚ) < (startHand 1000 deckA).currentBet + 20) ∧
    (playerAction (PAct.raise 25) (startHand 1000 deckA)).pot ≠
      (startHand 1000 deckA).pot := by
  refine ⟨by decide, by decide⟩

/-- C3 (amended): the engine rejects a raise only for insufficient stack
(target cost above the player's chips), leaving the state unchanged in
that case; a below-minimum raise target is not rejected by the engine —
whenever its cost is covered it is applied, committing the player to the
target and making it the table bet.  The below-minimum case is prevented
only by the UI slider, whose minimum is `currentBet + 20` whenever
`currentBet > 0`. -/
theorem c3_raise_amended :
    (∀ (s : GState) (r : ℤ), s.isPlayerTurn = true →
      (r : ℚ) - s.playerBet > s.playerChips → playerAction (PAct.raise r) s = s) ∧
    (∀ (s : GState) (r : ℤ), s.isPlayerTurn = true →
      (r : ℚ) - s.playerBet ≤ s.playerChips →
      (playerAction (PAct.raise r) s).playerBet = (r : ℚ) ∧
      (playerAction (PAct.raise r) s).currentBet = (r : ℚ) ∧
      (playerAction (PAct.raise r) s).pot = s.pot + ((r : ℚ) - s.playerBet) ∧
      (playerAction (PAct.raise r) s).playerChips =
        s.playerChips - ((r : ℚ) - s.playerBet) ∧
      (playerAction (PAct.raise r) s).phase = s.phase) ∧
    (∀ (s : GState) (r : ℤ), legalP (PAct.raise r) s → 0 < s.currentBet →
      s.currentBet + 20 ≤ (r : ℚ)) := by
  refine ⟨?_, ?_, ?_⟩
  · intro s r h hc
    simp [playerAction, h, if_pos hc]
  · intro s r h hc
    simp [playerAction, h, if_neg (not_lt.mpr hc)]
  · intro s r hleg hpos
    have h2 := hleg.2.1
    rwa [sliderMin, if_pos hpos] at h2

/-- C3 witness: with 990 chips behind, a raise to 2000 is rejected with
the state unchanged, while a raise to 40 is applied (bet 40, pot grows
by 30). -/
theorem c3_witness :
    playerAction (PAct.raise 2000) (startHand 1000 deckA) = startHand 1000 deckA ∧
    (playerAction (PAct.raise 40) (startHand 1000 deckA)).playerBet = 40 ∧
    (playerAction (PAct.raise 40) (startHand 1000 deckA)).pot =
      (startHand 1000 deckA).pot + (40 - (startHand 1000 deckA).playerBet) ∧
    ((startHand 1000 deckA).currentBet + 20 ≤ (40 : ℚ)) := by
  refine ⟨c3_raise_amended.1 _ 2000 rfl (by decide), ?_, ?_, ?_⟩
  · exact (c3_raise_amended.2.1 _ 40 rfl (by decide)).1
  · exact (c3_raise_amended.2.1 _ 40 rfl (by decide)).2.2.1
  · exact c3_raise_amended.2.2 (startHand 1000 deckA) 40 ⟨rfl, by decide, by decide⟩
      (by decide)

/-- C2 counterexample: from the start of a hand (blinds 10/20, table bet
20), seat A's call alone already closes the preflop round — afterwards
the phase is `flop` with the table bet reset to 0, so seat B can never
"check at 20"; and actually running the opponent's check as the next
step advances the phase again, to `turn` with 4 community cards, not the
claimed `flop` with 3. -/
theorem c2_counterexample :
    (playerAction PAct.call (startHand 1000 deckA)).phase = Phase.flop ∧
    (playerAction PAct.call (startHand 1000 deckA)).currentBet = 0 ∧
    (aiStep (2 / 10) (playerAction PAct.call (startHand 1000 deckA))).phase = Phase.turn ∧
    (aiStep (2 / 10) (playerAction PAct.call (startHand 1000 deckA))).communityCards.length
      = 4 := by
  refine ⟨by decide, by decide, by decide, by decide⟩

/-- `Deck.deal` on a deck written with its last card explicit. -/
theorem deal_concat (l : List Card) (c : Card) : Deck.deal (l ++ [c]) = (some c, l) := by
  simp [Deck.deal]

/-- `showdownSettle` only settles chips: the phase field is untouched. -/
theorem showdownSettle_phase (s : GState) : (showdownSettle s).phase = s.phase := by
  simp only [showdownSettle]
  split_ifs <;> rfl

/-- `nextPhase` run during a live phase always moves to a different
phase. -/
theorem nextPhase_phase_ne (s : GState) (h : s.phase ≠ Phase.showdown) :
    (nextPhase s).phase ≠ s.phase := by
  cases hp : s.phase <;>
    simp only [nextPhase, hp, showdownSettle_phase] <;>
    first
      | decide
      | exact absurd hp h

/-- The state built by `startHand` when the deck's last four cards are
written explicitly. -/
theorem startHand_eq (p0 : ℚ) (d4 : List Card) (e1 e2 e3 e4 : Card) :
    startHand p0 (d4 ++ [e4] ++ [e3] ++ [e2] ++ [e1]) =
      { playerChips := p0 - min p0 10
        aiChips := 999980
        pot := min p0 10 + 20
        currentBet := 20
        playerBet := min p0 10
        aiBet := 20
        phase := Phase.preflop
        deck := d4
        communityCards := []
        playerCards := [e1, e2]
        aiCards := [e3, e4]
        isPlayerTurn := true
        handOver := false } := by
  simp only [startHand, deal_concat, Option.toList_some]
  norm_num

/-- The state built by `nextPhase` out of the preflop phase when the
deck's last three cards are written explicitly. -/
theorem nextPhase_preflop_eq (s : GState) (d : List Card) (e5 e6 e7 : Card)
    (hph : s.phase = Phase.preflop) (hd : s.deck = d ++ [e7] ++ [e6] ++ [e5]) :
    nextPhase s =
      { s with
        playerBet := 0
        aiBet := 0
        currentBet := 0
        phase := Phase.flop
        deck := d
        communityCards := s.communityCards ++ [e5, e6, e7]
        isPlayerTurn := true } := by
  simp only [nextPhase, hph, hd, deal_concat, Option.toList_some]
  simp

/-- C2 (amended): seat A's call alone closes the preflop round — the big
blind seat never gets to check.  Starting with blinds 10/20 and table bet
20 (player stack at least the 20 to call), the player's call advances
the phase to `flop`, deals exactly the next 3 cards from the deck's
drawing end to the community cards, and resets both per-round bets and
the table bet to 0, with the pot at 40.  In general a round closes after
a player action exactly when that action is a call or a check (never a
raise or fold) and the two seats' committed bets are equal once the
action's chips have moved. -/
theorem c2_round_close_amended :
    (∀ (p0 : ℚ) (rest : List Card) (e1 e2 e3 e4 e5 e6 e7 : Card), 20 ≤ p0 →
      (playerAction PAct.call
          (startHand p0 (rest ++ [e7] ++ [e6] ++ [e5] ++ [e4] ++ [e3] ++ [e2] ++ [e1]))) =
        { playerChips := p0 - 20
          aiChips := 999980
          pot := 40
          currentBet := 0
          playerBet := 0
          aiBet := 0
          phase := Phase.flop
          deck := rest
          communityCards := [e5, e6, e7]
          playerCards := [e1, e2]
          aiCards := [e3, e4]
          isPlayerTurn := true
          handOver := false }) ∧
    (∀ s : GState, s.isPlayerTurn = true → s.phase ≠ Phase.showdown →
      ((playerAction PAct.call s).phase ≠ s.phase ↔
        s.playerBet + min (s.currentBet - s.playerBet) s.playerChips = s.aiBet)) ∧
    (∀ s : GState, s.isPlayerTurn = true → s.phase ≠ Phase.showdown →
      s.currentBet ≤ s.playerBet →
      ((playerAction PAct.check s).phase ≠ s.phase ↔ s.aiBet = s.playerBet)) ∧
    (∀ (s : GState) (r : ℤ),
      (playerAction (PAct.raise r) s).phase = s.phase ∧
      (playerAction PAct.fold s).phase = s.phase) := by
  refine ⟨?_, ?_, ?_, ?_⟩
  · intro p0 rest e1 e2 e3 e4 e5 e6 e7 hp0
    have hmin : min p0 10 = 10 := min_eq_right (by linarith)
    rw [startHand_eq p0 (rest ++ [e7] ++ [e6] ++ [e5]) e1 e2 e3 e4, hmin]
    simp only [playerAction, if_true]
    rw [if_neg (show ¬((20 : ℚ) - 10 > p0 - 10) by linarith)]
    rw [if_pos (show (10 : ℚ) + (20 - 10) = 20 by norm_num)]
    rw [nextPhase_preflop_eq _ rest e5 e6 e7 rfl rfl]
    simp only [GState.mk.injEq]
    norm_num
    ring
  · intro s h1 h2
    simp only [playerAction, h1, if_true]
    by_cases hshort : s.currentBet - s.playerBet > s.playerChips
    · rw [if_pos hshort, min_eq_right (le_of_lt hshort)]
      split_ifs with hclose
      · exact ⟨fun _ => hclose, fun _ => nextPhase_phase_ne _ h2⟩
      · exact ⟨fun hph => absurd rfl hph, fun hrhs => absurd hrhs hclose⟩
    · rw [if_neg hshort, min_eq_left (not_lt.mp hshort)]
      split_ifs with hclose
      · exact ⟨fun _ => hclose, fun _ => nextPhase_phase_ne _ h2⟩
      · exact ⟨fun hph => absurd rfl hph, fun hrhs => absurd hrhs hclose⟩
  · intro s h1 h2 h3
    simp only [playerAction, h1, if_true]
    rw [if_neg (not_lt.mpr h3)]
    split_ifs with hclose
    · exact ⟨fun _ => hclose, fun _ => nextPhase_phase_ne _ h2⟩
    · exact ⟨fun hph => absurd rfl hph, fun hrhs => absurd hrhs hclose⟩
  · intro s r
    constructor
    · by_cases h1 : s.isPlayerTurn
      · simp only [playerAction, h1, if_true]
        split_ifs <;> rfl
      · simp [playerAction, h1]
    · by_cases h1 : s.isPlayerTurn
      · simp [playerAction, h1, endHand]
      · simp [playerAction, h1]

/-- C2 witness: the concrete preflop call on `deckA` produces exactly the
state promised by the scenario conjunct, at that start state a call
closes the round (both bets land on 20), and a raise leaves the phase
alone. -/
theorem c2_witness :
    (playerAction PAct.call
        (startHand 1000 ([⟨Suit.c, 9⟩, ⟨Suit.c, 8⟩] ++ [⟨Suit.c, 7⟩] ++ [⟨Suit.c, 6⟩] ++
          [⟨Suit.c, 5⟩] ++ [⟨Suit.s, 10⟩] ++ [⟨Suit.d, 11⟩] ++ [⟨Suit.h, 4⟩] ++
          [⟨Suit.h, 12⟩]))) =
      { playerChips := 980
        aiChips := 999980
        pot := 40
        currentBet := 0
        playerBet := 0
        aiBet := 0
        phase := Phase.flop
        deck := [⟨Suit.c, 9⟩, ⟨Suit.c, 8⟩]
        communityCards := [⟨Suit.c, 5⟩, ⟨Suit.c, 6⟩, ⟨Suit.c, 7⟩]
        playerCards := [⟨Suit.h, 12⟩, ⟨Suit.h, 4⟩]
        aiCards := [⟨Suit.d, 11⟩, ⟨Suit.s, 10⟩]
        isPlayerTurn := true
        handOver := false } ∧
    ((playerAction PAct.call (startHand 1000 deckA)).phase ≠
        (startHand 1000 deckA).phase ↔
      (startHand 1000 deckA).playerBet +
          min ((startHand 1000 deckA).currentBet - (startHand 1000 deckA).playerBet)
            (startHand 1000 deckA).playerChips =
        (startHand 1000 deckA).aiBet) ∧
    (playerAction (PAct.raise 40) (startHand 1000 deckA)).phase =
      (startHand 1000 deckA).phase := by
  refine ⟨?_, ?_, ?_⟩
  · have h := c2_round_close_amended.1 1000 [⟨Suit.c, 9⟩, ⟨Suit.c, 8⟩]
      ⟨Suit.h, 12⟩ ⟨Suit.h, 4⟩ ⟨Suit.d, 11⟩ ⟨Suit.s, 10⟩ ⟨Suit.c, 5⟩ ⟨Suit.c, 6⟩ ⟨Suit.c, 7⟩
      (by norm_num)
    convert h using 2
  · exact c2_round_close_amended.2.1 _ rfl (by decide)
  · exact (c2_round_close_amended.2.2.2 (startHand 1000 deckA) 40).1

/-- C1 counterexample: the positional tiebreak encoding mis-orders
two-pair hands and cannot separate one-pair hands: aces-up A A 2 2 3 is
canonically better than kings-up K K Q Q A, yet its tiebreakValue is
smaller (1423 < 1434); and 9 9 A 8 3 is canonically better than
9 9 A 7 2, yet both get tiebreakValue 914. -/
theorem c1_counterexample :
    (evaluate twoPairAces).rank = 2 ∧ (evaluate twoPairKings).rank = 2 ∧
    lexGtRanks (canonicalKey twoPairAces) (canonicalKey twoPairKings) = true ∧
    (evaluate twoPairAces).value < (evaluate twoPairKings).value ∧
    (evaluate pairNinesLow).rank = 1 ∧ (evaluate pairNinesHigh).rank = 1 ∧
    lexGtRanks (canonicalKey pairNinesHigh) (canonicalKey pairNinesLow) = true ∧
    (evaluate pairNinesHigh).value = (evaluate pairNinesLow).value := by
  refine ⟨by decide, by decide, by decide, by decide, by decide, by decide, by decide,
    by decide⟩

/-- C6 counterexample: a reachable state with a negative opponent stack.
Starting a hand with a player stack of 2000000, the player's slider-legal
raise to 1500000 is followed by the opponent's call (draw 0.9 > 0.3),
which is not stack-checked: the opponent pays 1499980 out of 999980 and
ends at -500000 chips. -/
theorem c6_counterexample :
    Reaches (startHand 2000000 deckA)
      (aiStep (9 / 10) (playerAction (PAct.raise 1500000) (startHand 2000000 deckA))) ∧
    (aiStep (9 / 10) (playerAction (PAct.raise 1500000) (startHand 2000000 deckA))).aiChips
      < 0 := by
  constructor
  · exact Relation.ReflTransGen.tail
      (Relation.ReflTransGen.tail Relation.ReflTransGen.refl
        (Step.player (PAct.raise 1500000) _ ⟨rfl, by decide, by decide⟩ rfl))
      (Step.opp (9 / 10) _ (by decide) (by decide) (by norm_num) (by norm_num))
  · decide

/-- The sort inside `evaluate` yields a rank-descending list. -/
theorem sorted_sortCards (cs : List Card) : List.Sorted cardGE (sortCards cs) :=
  List.sorted_insertionSort _ _

/-- The sort inside `evaluate` permutes the cards. -/
theorem perm_sortCards (cs : List Card) : List.Perm (sortCards cs) cs :=
  List.perm_insertionSort _ _

/-- A rank-descending card list maps to a descending rank list. -/
theorem rankMap_sorted {l : List Card} (h : List.Sorted cardGE l) :
    List.Sorted (· ≥ ·) (l.map Card.rank) :=
  List.Pairwise.map _ (fun _ _ hab => hab) h

/-- Two rank-descending card lists carrying the same multiset of ranks
have identical rank sequences. -/
theorem rankMap_eq_of_perm_sorted {l1 l2 : List Card}
    (hp : List.Perm (l1.map Card.rank) (l2.map Card.rank))
    (h1 : List.Sorted cardGE l1) (h2 : List.Sorted cardGE l2) :
    l1.map Card.rank = l2.map Card.rank :=
  List.eq_of_perm_of_sorted hp (rankMap_sorted h1) (rankMap_sorted h2)

/-- `getKicker` reads only the rank sequence of its card list. -/
theorem getKicker_congr : ∀ (l1 l2 : List Card),
    l1.map Card.rank = l2.map Card.rank → ∀ ex, getKicker l1 ex = getKicker l2 ex
  | [], [], _, _ => rfl
  | [], _ :: _, h, _ => by simp at h
  | _ :: _, [], h, _ => by simp at h
  | a :: l1, b :: l2, h, ex => by
    simp only [List.map_cons, List.cons.injEq] at h
    simp only [getKicker, h.1]
    by_cases hm : b.rank ∈ ex
    · simp only [if_pos hm]
      exact getKicker_congr l1 l2 h.2 ex
    · simp only [if_neg hm]

/-- `headRank` reads only the rank sequence. -/
theorem headRank_congr {l1 l2 : List Card}
    (h : l1.map Card.rank = l2.map Card.rank) : headRank l1 = headRank l2 := by
  cases l1 <;> cases l2 <;> simp_all [headRank]

/-- The pre-sort group list is a function of the multiset of ranks. -/
theorem groupRanksPre_congr {rs1 rs2 : List ℕ} (h : List.Perm rs1 rs2) :
    groupRanksPre rs1 = groupRanksPre rs2 := by
  unfold groupRanksPre
  have hd : List.insertionSort (· ≤ ·) rs1.dedup = List.insertionSort (· ≤ ·) rs2.dedup :=
    List.eq_of_perm_of_sorted
      ((List.perm_insertionSort _ _).trans (h.dedup.trans (List.perm_insertionSort _ _).symm))
      (List.sorted_insertionSort _ _) (List.sorted_insertionSort _ _)
  rw [hd]
  exact List.map_congr_left fun r _ => by rw [h.count_eq]

/-- `groupCards` is a function of the multiset of ranks. -/
theorem groupCards_congr {l1 l2 : List Card}
    (h : List.Perm (l1.map Card.rank) (l2.map Card.rank)) :
    groupCards l1 = groupCards l2 := by
  unfold groupCards
  rw [groupRanksPre_congr h]

/-- `uniqueRanksDesc` is a function of the multiset of ranks. -/
theorem uniqueRanksDesc_congr {l1 l2 : List Card}
    (h : List.Perm (l1.map Card.rank) (l2.map Card.rank)) :
    uniqueRanksDesc l1 = uniqueRanksDesc l2 :=
  List.eq_of_perm_of_sorted
    ((List.perm_insertionSort _ _).trans (h.dedup.trans (List.perm_insertionSort _ _).symm))
    (List.sorted_insertionSort _ _) (List.sorted_insertionSort _ _)

/-- `isStraight` is a function of the multiset of ranks. -/
theorem isStraight_congr {l1 l2 : List Card}
    (h : List.Perm (l1.map Card.rank) (l2.map Card.rank)) :
    isStraight l1 = isStraight l2 := by
  unfold isStraight
  rw [uniqueRanksDesc_congr h]

/-- Suit counts agree across a permutation. -/
theorem suitCount_congr {l1 l2 : List Card} (h : List.Perm l1 l2) (su : Suit) :
    suitCount l1 su = suitCount l2 su :=
  (h.filter _).length_eq

/-- The flush tiebreak value agrees across a permutation of sorted
lists. -/
theorem flushValue_congr {l1 l2 : List Card} (hp : List.Perm l1 l2)
    (h1 : List.Sorted cardGE l1) (h2 : List.Sorted cardGE l2) (su : Suit) :
    flushValue l1 su = flushValue l2 su := by
  unfold flushValue sortCards
  rw [List.Sorted.insertionSort_eq (h1.filter _), List.Sorted.insertionSort_eq (h2.filter _)]
  exact headRank_congr (rankMap_eq_of_perm_sorted ((hp.filter _).map _)
    (h1.filter _) (h2.filter _))

/-- `isFlush` agrees across a permutation of sorted lists. -/
theorem isFlush_congr {l1 l2 : List Card} (hp : List.Perm l1 l2)
    (h1 : List.Sorted cardGE l1) (h2 : List.Sorted cardGE l2) :
    isFlush l1 = isFlush l2 := by
  unfold isFlush
  rw [suitCount_congr hp Suit.h, suitCount_congr hp Suit.d, suitCount_congr hp Suit.c,
    suitCount_congr hp Suit.s, flushValue_congr hp h1 h2 Suit.h,
    flushValue_congr hp h1 h2 Suit.d, flushValue_congr hp h1 h2 Suit.c,
    flushValue_congr hp h1 h2 Suit.s]

/-- The scoring body agrees on any two sorted permutations of the same
cards. -/
theorem evalSorted_congr {l1 l2 : List Card} (hp : List.Perm l1 l2)
    (h1 : List.Sorted cardGE l1) (h2 : List.Sorted cardGE l2) :
    evalSorted l1 = evalSorted l2 := by
  have hmap : l1.map Card.rank = l2.map Card.rank :=
    rankMap_eq_of_perm_sorted (hp.map _) h1 h2
  have hfl : isFlush l1 = isFlush l2 := isFlush_congr hp h1 h2
  have hst : isStraight l1 = isStraight l2 := isStraight_congr (hmap ▸ List.Perm.refl _)
  have hgr : groupCards l1 = groupCards l2 := groupCards_congr (hmap ▸ List.Perm.refl _)
  have hk : getKicker l1 = getKicker l2 := funext fun ex => getKicker_congr _ _ hmap ex
  unfold evalSorted quadsOf tripsOf pairsOf
  rw [hfl, hst, hgr, hk]

/-- C8: `HandEvaluator.evaluate` is invariant to the order of its input
cards — any permutation of the card list yields the same score object
(category, tiebreakValue and label). -/
theorem c8_perm_invariant :
    ∀ cs1 cs2 : List Card, List.Perm cs1 cs2 → evaluate cs1 = evaluate cs2 := by
  intro cs1 cs2 h
  unfold evaluate
  by_cases h1 : cs1 = []
  · subst h1
    rw [List.Perm.eq_nil h.symm]
  · have h2 : cs2 ≠ [] := fun hh => h1 (List.Perm.eq_nil (hh ▸ h))
    rw [if_neg h1, if_neg h2]
    exact evalSorted_congr
      ((perm_sortCards cs1).trans (h.trans (perm_sortCards cs2).symm))
      (sorted_sortCards cs1) (sorted_sortCards cs2)

/-- C8 witness: a concrete permutation — swapping A♠ and 2♥ — evaluates
to the same score. -/
theorem c8_witness :
    evaluate [⟨Suit.h, 2⟩, ⟨Suit.s, 14⟩] = evaluate [⟨Suit.s, 14⟩, ⟨Suit.h, 2⟩] :=
  c8_perm_invariant _ _ (by decide)

/-- `getKicker` returns 0 or the rank of one of the cards, so it is
bounded by 14 on a well-formed hand. -/
theorem getKicker_le {l : List Card} (hb : ∀ c ∈ l, c.rank ≤ 14) :
    ∀ ex, getKicker l ex ≤ 14 := by
  induction l with
  | nil =>
    intro ex
    simp [getKicker]
  | cons a l ih =>
    intro ex
    simp only [getKicker]
    by_cases hm : a.rank ∈ ex
    · rw [if_pos hm]
      exact ih (fun c hc => hb c (List.mem_cons_of_mem _ hc)) ex
    · rw [if_neg hm]
      exact hb a (List.mem_cons_self _ _)

/-- A quads score's value is the quad rank times 100 plus the kicker. -/
theorem value_of_rank7 (cs : List Card) (h : (evaluate cs).rank = 7) :
    (evaluate cs).value = quadRank cs * 100 + getKicker (sortCards cs) [quadRank cs] := by
  unfold evaluate at h ⊢
  by_cases hcs : cs = []
  · rw [if_pos hcs] at h
    exact absurd h (by decide)
  · rw [if_neg hcs] at h ⊢
    unfold evalSorted at h ⊢
    unfold quadRank
    split_ifs at h ⊢ <;> simp_all

/-- A trips score's value is the trip rank times 100 plus the kicker. -/
theorem value_of_rank3 (cs : List Card) (h : (evaluate cs).rank = 3) :
    (evaluate cs).value = tripRank cs * 100 + getKicker (sortCards cs) [tripRank cs] := by
  unfold evaluate at h ⊢
  by_cases hcs : cs = []
  · rw [if_pos hcs] at h
    exact absurd h (by decide)
  · rw [if_neg hcs] at h ⊢
    unfold evalSorted at h ⊢
    unfold tripRank
    split_ifs at h ⊢ <;> simp_all

/-- A one-pair score's value is the pair rank times 100 plus the
kicker. -/
theorem value_of_rank1 (cs : List Card) (h : (evaluate cs).rank = 1) :
    (evaluate cs).value = topPairRank cs * 100 + getKicker (sortCards cs) [topPairRank cs] := by
  unfold evaluate at h ⊢
  by_cases hcs : cs = []
  · rw [if_pos hcs] at h
    exact absurd h (by decide)
  · rw [if_neg hcs] at h ⊢
    unfold evalSorted at h ⊢
    unfold topPairRank
    split_ifs at h ⊢ <;> simp_all

/-- A two-pair score's value combines both pair ranks and the kicker. -/
theorem value_of_rank2 (cs : List Card) (h : (evaluate cs).rank = 2) :
    (evaluate cs).value = topPairRank cs * 100 + secondPairRank cs * 10 +
      getKicker (sortCards cs) [topPairRank cs, secondPairRank cs] := by
  unfold evaluate at h ⊢
  by_cases hcs : cs = []
  · rw [if_pos hcs] at h
    exact absurd h (by decide)
  · rw [if_neg hcs] at h ⊢
    unfold evalSorted at h ⊢
    unfold topPairRank secondPairRank
    split_ifs at h ⊢ <;> simp_all

/-- Equal rank multisets give equal rank sequences after `evaluate`'s
sort. -/
theorem sorted_rankMap_eq_of_rank_perm {cs1 cs2 : List Card}
    (h : List.Perm (cs1.map Card.rank) (cs2.map Card.rank)) :
    (sortCards cs1).map Card.rank = (sortCards cs2).map Card.rank :=
  rankMap_eq_of_perm_sorted
    (((perm_sortCards cs1).map _).trans (h.trans ((perm_sortCards cs2).map _).symm))
    (sorted_sortCards cs1) (sorted_sortCards cs2)

/-- C1 (amended): the positional encoding is only partially faithful to
canonical poker comparison.  What does hold: (a) among two quads hands a
strictly higher quad rank gives a strictly greater tiebreakValue, and
likewise for trips and one-pair hands with their primary group rank;
(b) hands with identical rank multisets evaluated in the same category
among one pair, two pair, trips and quads receive equal tiebreakValue.
What fails (see the counterexample): two-pair hands can be mis-ordered
because the kicker term can outweigh the second pair term, and hands
differing only below the encoded kicker tie instead of being separated. -/
theorem c1_tiebreak_amended :
    (∀ cs1 cs2 : List Card, (∀ c ∈ cs1, c.rank ≤ 14) → (∀ c ∈ cs2, c.rank ≤ 14) →
      (evaluate cs1).rank = 7 → (evaluate cs2).rank = 7 →
      quadRank cs2 < quadRank cs1 → (evaluate cs2).value < (evaluate cs1).value) ∧
    (∀ cs1 cs2 : List Card, (∀ c ∈ cs1, c.rank ≤ 14) → (∀ c ∈ cs2, c.rank ≤ 14) →
      (evaluate cs1).rank = 3 → (evaluate cs2).rank = 3 →
      tripRank cs2 < tripRank cs1 → (evaluate cs2).value < (evaluate cs1).value) ∧
    (∀ cs1 cs2 : List Card, (∀ c ∈ cs1, c.rank ≤ 14) → (∀ c ∈ cs2, c.rank ≤ 14) →
      (evaluate cs1).rank = 1 → (evaluate cs2).rank = 1 →
      topPairRank cs2 < topPairRank cs1 → (evaluate cs2).value < (evaluate cs1).value) ∧
    (∀ (cs1 cs2 : List Card) (r : ℤ),
      List.Perm (cs1.map Card.rank) (cs2.map Card.rank) →
      (evaluate cs1).rank = r → (evaluate cs2).rank = r →
      (r = 1 ∨ r = 2 ∨ r = 3 ∨ r = 7) →
      (evaluate cs1).value = (evaluate cs2).value) := by
  have bound2 : ∀ (cs : List Card), (∀ c ∈ cs, c.rank ≤ 14) →
      ∀ ex, getKicker (sortCards cs) ex ≤ 14 := by
    intro cs hb ex
    exact getKicker_le (fun c hc => hb c ((perm_sortCards cs).mem_iff.mp hc)) ex
  refine ⟨?_, ?_, ?_, ?_⟩
  · intro cs1 cs2 hb1 hb2 h1 h2 hq
    have e1 := value_of_rank7 cs1 h1
    have e2 := value_of_rank7 cs2 h2
    have k2 := bound2 cs2 hb2 [quadRank cs2]
    omega
  · intro cs1 cs2 hb1 hb2 h1 h2 hq
    have e1 := value_of_rank3 cs1 h1
    have e2 := value_of_rank3 cs2 h2
    have k2 := bound2 cs2 hb2 [tripRank cs2]
    omega
  · intro cs1 cs2 hb1 hb2 h1 h2 hq
    have e1 := value_of_rank1 cs1 h1
    have e2 := value_of_rank1 cs2 h2
    have k2 := bound2 cs2 hb2 [topPairRank cs2]
    omega
  · intro cs1 cs2 r hperm h1 h2 hr
    have hmap : (sortCards cs1).map Card.rank = (sortCards cs2).map Card.rank :=
      sorted_rankMap_eq_of_rank_perm hperm
    have hgr : groupCards (sortCards cs1) = groupCards (sortCards cs2) :=
      groupCards_congr (hmap ▸ List.Perm.refl _)
    have hk : ∀ ex, getKicker (sortCards cs1) ex = getKicker (sortCards cs2) ex :=
      getKicker_congr _ _ hmap
    have hqr : quadRank cs1 = quadRank cs2 := by
      unfold quadRank quadsOf
      rw [hgr]
    have htr : tripRank cs1 = tripRank cs2 := by
      unfold tripRank tripsOf
      rw [hgr]
    have hpr : topPairRank cs1 = topPairRank cs2 := by
      unfold topPairRank pairsOf
      rw [hgr]
    have hpr2 : secondPairRank cs1 = secondPairRank cs2 := by
      unfold secondPairRank pairsOf
      rw [hgr]
    rcases hr with rfl | rfl | rfl | rfl
    · rw [value_of_rank1 cs1 h1, value_of_rank1 cs2 h2, hpr, hk]
    · rw [value_of_rank2 cs1 h1, value_of_rank2 cs2 h2, hpr, hpr2, hk]
    · rw [value_of_rank3 cs1 h1, value_of_rank3 cs2 h2, htr, hk]
    · rw [value_of_rank7 cs1 h1, value_of_rank7 cs2 h2, hqr, hk]

/-- C1 witness: four kings beat four queens in tiebreakValue; pair of
nines listed in reverse order scores identically to `pairNinesLow`. -/
theorem c1_witness :
    (evaluate [⟨Suit.s, 12⟩, ⟨Suit.h, 12⟩, ⟨Suit.d, 12⟩, ⟨Suit.c, 12⟩, ⟨Suit.s, 14⟩]).value <
      (evaluate [⟨Suit.s, 13⟩, ⟨Suit.h, 13⟩, ⟨Suit.d, 13⟩, ⟨Suit.c, 13⟩, ⟨Suit.s, 14⟩]).value ∧
    (evaluate pairNinesLow).value =
      (evaluate [⟨Suit.c, 2⟩, ⟨Suit.d, 7⟩, ⟨Suit.s, 14⟩, ⟨Suit.h, 9⟩, ⟨Suit.s, 9⟩]).value := by
  constructor
  · exact c1_tiebreak_amended.1 _ _ (by decide) (by decide) (by decide) (by decide) (by decide)
  · exact c1_tiebreak_amended.2.2.2 _ _ 1 (by decide) (by decide) (by decide) (Or.inl rfl)

/-- Whole numbers are closed under addition. -/
theorem IsIntQ.add {a b : ℚ} : IsIntQ a → IsIntQ b → IsIntQ (a + b) :=
  fun ⟨m, hm⟩ ⟨n, hn⟩ => ⟨m + n, by rw [hm, hn]; push_cast; ring⟩

/-- Whole numbers are closed under subtraction. -/
theorem IsIntQ.sub {a b : ℚ} : IsIntQ a → IsIntQ b → IsIntQ (a - b) :=
  fun ⟨m, hm⟩ ⟨n, hn⟩ => ⟨m - n, by rw [hm, hn]; push_cast; ring⟩

/-- Whole numbers are closed under `min`. -/
theorem IsIntQ.min {a b : ℚ} : IsIntQ a → IsIntQ b → IsIntQ (min a b) :=
  fun ⟨m, hm⟩ ⟨n, hn⟩ => ⟨Min.min m n, by rw [hm, hn, ← Int.cast_min]⟩

/-- A whole-number integer cast. -/
theorem isIntQ_coe (n : ℤ) : IsIntQ (n : ℚ) := ⟨n, rfl⟩

/-- `endHand` preserves the engine invariant. -/
theorem inv_endHand (w : Winner) {s : GState} (h : Inv s) : Inv (endHand w s) := by
  obtain ⟨h1, h2, h3, h4, h5, h6, h7, h8, h9, h10, h11, _⟩ := h
  cases w
  · exact ⟨add_nonneg h1 h2, le_refl 0, h3, h4, h5, h6.add h8, h7,
      ⟨0, by show (0 : ℚ) = ((0 : ℤ) : ℚ); norm_num⟩, h9, h10, h11, fun hh => nomatch hh⟩
  · exact ⟨h1, le_refl 0, h3, h4, h5, h6, h7.add h8,
      ⟨0, by show (0 : ℚ) = ((0 : ℤ) : ℚ); norm_num⟩, h9, h10, h11, fun hh => nomatch hh⟩

/-- `showdownSettle` preserves the engine invariant when the round bets
have been cleared (so the live pot is even and halves to a whole
number). -/
theorem inv_showdownSettle {s : GState} (h : Inv s) (hpb : s.playerBet = 0)
    (hab : s.aiBet = 0) (hho : s.handOver = false) : Inv (showdownSettle s) := by
  obtain ⟨h1, h2, h3, h4, h5, h6, h7, h8, h9, h10, h11, h12⟩ := h
  obtain ⟨k, hk⟩ := h12 hho
  rw [hpb, hab] at hk
  have hpot : s.pot = 2 * (k : ℚ) := by linarith
  have hhalf : IsIntQ (s.pot / 2) := ⟨k, by rw [hpot]; ring⟩
  have hhalfpos : 0 ≤ s.pot / 2 := by positivity
  simp only [showdownSettle]
  split_ifs
  · exact ⟨add_nonneg h1 h2, le_refl 0, h3, h4, h5, h6.add h8, h7,
      ⟨0, by show (0 : ℚ) = ((0 : ℤ) : ℚ); norm_num⟩, h9, h10, h11, fun hh => nomatch hh⟩
  · exact ⟨h1, le_refl 0, h3, h4, h5, h6, h7.add h8,
      ⟨0, by show (0 : ℚ) = ((0 : ℤ) : ℚ); norm_num⟩, h9, h10, h11, fun hh => nomatch hh⟩
  · exact ⟨add_nonneg h1 h2, le_refl 0, h3, h4, h5, h6.add h8, h7,
      ⟨0, by show (0 : ℚ) = ((0 : ℤ) : ℚ); norm_num⟩, h9, h10, h11, fun hh => nomatch hh⟩
  · exact ⟨h1, le_refl 0, h3, h4, h5, h6, h7.add h8,
      ⟨0, by show (0 : ℚ) = ((0 : ℤ) : ℚ); norm_num⟩, h9, h10, h11, fun hh => nomatch hh⟩
  · exact ⟨add_nonneg h1 hhalfpos, le_refl 0, h3, h4, h5, h6.add hhalf, h7.add hhalf,
      ⟨0, by show (0 : ℚ) = ((0 : ℤ) : ℚ); norm_num⟩, h9, h10, h11, fun hh => nomatch hh⟩

/-- `nextPhase` preserves the engine invariant whenever the round it
closes had matched bets. -/
theorem inv_nextPhase {s : GState} (h : Inv s) (hbet : s.playerBet = s.aiBet)
    (hho : s.handOver = false) : Inv (nextPhase s) := by
  obtain ⟨h1, h2, h3, h4, h5, h6, h7, h8, h9, h10, h11, h12⟩ := h
  obtain ⟨k, hk⟩ := h12 hho
  obtain ⟨m, hm⟩ := h10
  have hpot : s.pot = 2 * ((k + m : ℤ) : ℚ) := by
    have hb : s.aiBet = (m : ℚ) := by rw [← hbet]; exact hm
    rw [hm, hb] at hk
    push_cast
    linarith
  have hinv0 : Inv { s with
      playerBet := 0
      aiBet := 0
      currentBet := 0 } :=
    ⟨h1, h2, le_refl 0, le_refl 0, by simp, h6, h7, h8,
      ⟨0, by norm_num⟩, ⟨0, by norm_num⟩, ⟨0, by norm_num⟩,
      fun _ => ⟨k + m, by simpa using hpot⟩⟩
  unfold nextPhase
  cases hph : s.phase
  · simp only [hph]
    exact hinv0
  · simp only [hph]
    exact hinv0
  · simp only [hph]
    exact hinv0
  · simp only [hph]
    exact inv_showdownSettle hinv0 rfl rfl hho
  · simp only [hph]
    exact hinv0

/-- The state after a short (all-in) call keeps the engine invariant. -/
theorem short_call_inv {s : GState} (h : Inv s)
    (hshort : s.currentBet - s.playerBet > s.playerChips) :
    Inv { s with
      pot := s.pot + s.playerChips
      playerBet := s.playerBet + s.playerChips
      playerChips := 0
      isPlayerTurn := false } := by
  obtain ⟨h1, h2, h3, h4, h5, h6, h7, h8, h9, h10, h11, h12⟩ := h
  have hlt : s.playerBet + s.playerChips < s.currentBet := by linarith
  have hcb : s.currentBet = s.aiBet := by
    rcases le_total s.aiBet s.playerBet with hle | hle
    · rw [h5, max_eq_left hle] at hlt
      rw [h5, max_eq_left hle]
      linarith
    · rw [h5, max_eq_right hle]
  have hle2 : s.playerBet + s.playerChips ≤ s.aiBet := by
    rw [← hcb]
    exact le_of_lt hlt
  refine ⟨le_refl 0, ?_, ?_, h4, ?_, ⟨0, by show (0 : ℚ) = ((0 : ℤ) : ℚ); norm_num⟩, h7,
    h8.add h6, h9, h10.add h6, h11, fun hh => ?_⟩
  · show 0 ≤ s.pot + s.playerChips
    linarith
  · show 0 ≤ s.playerBet + s.playerChips
    linarith
  · show s.currentBet = max (s.playerBet + s.playerChips) s.aiBet
    rw [max_eq_right hle2]
    exact hcb
  · obtain ⟨k, hk⟩ := h12 hh
    refine ⟨k, ?_⟩
    show s.pot + s.playerChips - (s.playerBet + s.playerChips) - s.aiBet = 2 * (k : ℚ)
    linarith

/-- The state after a full call keeps the engine invariant. -/
theorem full_call_inv {s : GState} (h : Inv s)
    (hfull : s.currentBet - s.playerBet ≤ s.playerChips)
    (hcge : 0 ≤ s.currentBet - s.playerBet) :
    Inv { s with
      playerChips := s.playerChips - (s.currentBet - s.playerBet)
      pot := s.pot + (s.currentBet - s.playerBet)
      playerBet := s.playerBet + (s.currentBet - s.playerBet)
      isPlayerTurn := false } := by
  obtain ⟨h1, h2, h3, h4, h5, h6, h7, h8, h9, h10, h11, h12⟩ := h
  have hable : s.aiBet ≤ s.currentBet := by
    rw [h5]
    exact le_max_right _ _
  refine ⟨?_, ?_, ?_, h4, ?_, h6.sub (h9.sub h10), h7, h8.add (h9.sub h10), h9,
    h10.add (h9.sub h10), h11, fun hh => ?_⟩
  · show 0 ≤ s.playerChips - (s.currentBet - s.playerBet)
    linarith
  · show 0 ≤ s.pot + (s.currentBet - s.playerBet)
    linarith
  · show 0 ≤ s.playerBet + (s.currentBet - s.playerBet)
    linarith
  · show s.currentBet = max (s.playerBet + (s.currentBet - s.playerBet)) s.aiBet
    have he : s.playerBet + (s.currentBet - s.playerBet) = s.currentBet := by ring
    rw [he, max_eq_left hable]
  · obtain ⟨k, hk⟩ := h12 hh
    refine ⟨k, ?_⟩
    show s.pot + (s.currentBet - s.playerBet) -
      (s.playerBet + (s.currentBet - s.playerBet)) - s.aiBet = 2 * (k : ℚ)
    linarith

/-- The state after the opponent's (unchecked) call keeps the engine
invariant apart from any bound on the opponent stack. -/
theorem ai_call_inv {s : GState} (h : Inv s) (hfacing : s.currentBet > s.aiBet) :
    Inv { s with
      aiChips := s.aiChips - (s.currentBet - s.aiBet)
      pot := s.pot + (s.currentBet - s.aiBet)
      aiBet := s.aiBet + (s.currentBet - s.aiBet)
      isPlayerTurn := true } := by
  obtain ⟨h1, h2, h3, h4, h5, h6, h7, h8, h9, h10, h11, h12⟩ := h
  have hpble : s.playerBet ≤ s.currentBet := by
    rw [h5]
    exact le_max_left _ _
  refine ⟨h1, ?_, h3, ?_, ?_, h6, h7.sub (h9.sub h11), h8.add (h9.sub h11), h9,
    h10, h11.add (h9.sub h11), fun hh => ?_⟩
  · show 0 ≤ s.pot + (s.currentBet - s.aiBet)
    linarith
  · show 0 ≤ s.aiBet + (s.currentBet - s.aiBet)
    have : 0 ≤ s.currentBet := le_trans h3 hpble
    linarith
  · show s.currentBet = max s.playerBet (s.aiBet + (s.currentBet - s.aiBet))
    have he : s.aiBet + (s.currentBet - s.aiBet) = s.currentBet := by ring
    rw [he, max_eq_right hpble]
  · obtain ⟨k, hk⟩ := h12 hh
    refine ⟨k, ?_⟩
    show s.pot + (s.currentBet - s.aiBet) - s.playerBet -
      (s.aiBet + (s.currentBet - s.aiBet)) = 2 * (k : ℚ)
    linarith

/-- `playerAction` preserves the engine invariant for every UI-enabled
action during a live hand. -/
theorem inv_playerAction (a : PAct) {s : GState} (h : Inv s) (hleg : legalP a s)
    (hho : s.handOver = false) : Inv (playerAction a s) := by
  obtain ⟨h1, h2, h3, h4, h5, h6, h7, h8, h9, h10, h11, h12⟩ := h
  have hS : Inv s := ⟨h1, h2, h3, h4, h5, h6, h7, h8, h9, h10, h11, h12⟩
  have hpble : s.playerBet ≤ s.currentBet := by
    rw [h5]
    exact le_max_left _ _
  have hable : s.aiBet ≤ s.currentBet := by
    rw [h5]
    exact le_max_right _ _
  cases a with
  | fold =>
    have hturn : s.isPlayerTurn = true := hleg
    simp only [playerAction, hturn, if_true]
    exact inv_endHand Winner.ai hS
  | check =>
    have hturn : s.isPlayerTurn = true := hleg.1
    simp only [playerAction, hturn, if_true]
    split_ifs with hgt hc
    · exact hS
    · exact inv_nextPhase hS hc.symm hho
    · exact hS
  | call =>
    have hturn : s.isPlayerTurn = true := hleg.1
    have hcge : 0 ≤ s.currentBet - s.playerBet := sub_nonneg.mpr hpble
    simp only [playerAction, hturn, if_true]
    split_ifs with hshort hclose hclose2
    · -- short all-in call, bets happen to match afterwards
      refine inv_nextPhase ?_ hclose hho
      exact short_call_inv hS hshort
    · exact short_call_inv hS hshort
    · refine inv_nextPhase ?_ hclose2 hho
      exact full_call_inv hS (not_lt.mp hshort) hcge
    · exact full_call_inv hS (not_lt.mp hshort) hcge
  | raise r =>
    obtain ⟨hturn, hmin, hmax⟩ := hleg
    simp only [playerAction, hturn, if_true]
    split_ifs with hcost
    · exact hS
    · -- the raise is applied
      have hcb0 : 0 ≤ s.currentBet := le_trans h3 hpble
      have hcblt : s.currentBet < (r : ℚ) := by
        unfold sliderMin at hmin
        by_cases hpos : s.currentBet > 0
        · rw [if_pos hpos] at hmin
          linarith
        · rw [if_neg hpos] at hmin
          push_neg at hpos
          linarith
      have hcostnn : 0 ≤ (r : ℚ) - s.playerBet := by linarith
      obtain ⟨kk, hkk⟩ := h12 hho
      refine ⟨?_, ?_, ?_, ?_, ?_, ?_, ?_, ?_, ?_, ?_, ?_, fun _ => ⟨kk, ?_⟩⟩
      · show 0 ≤ s.playerChips - ((r : ℚ) - s.playerBet)
        have := not_lt.mp hcost
        linarith
      · show 0 ≤ s.pot + ((r : ℚ) - s.playerBet)
        linarith
      · show 0 ≤ (r : ℚ)
        linarith
      · exact h4
      · show (r : ℚ) = max (r : ℚ) s.aiBet
        exact (max_eq_left (by linarith)).symm
      · exact h6.sub ((isIntQ_coe r).sub h10)
      · exact h7
      · exact h8.add ((isIntQ_coe r).sub h10)
      · exact isIntQ_coe r
      · exact isIntQ_coe r
      · exact h11
      · show s.pot + ((r : ℚ) - s.playerBet) - (r : ℚ) - s.aiBet = 2 * (kk : ℚ)
        linarith

/-- `aiTurn` preserves the engine invariant. -/
theorem inv_aiStep (rand : ℚ) {s : GState} (h : Inv s) (hho : s.handOver = false) :
    Inv (aiStep rand s) := by
  obtain ⟨h1, h2, h3, h4, h5, h6, h7, h8, h9, h10, h11, h12⟩ := h
  have hS : Inv s := ⟨h1, h2, h3, h4, h5, h6, h7, h8, h9, h10, h11, h12⟩
  have hpble : s.playerBet ≤ s.currentBet := by
    rw [h5]
    exact le_max_left _ _
  have hable : s.aiBet ≤ s.currentBet := by
    rw [h5]
    exact le_max_right _ _
  have hcb0 : 0 ≤ s.currentBet := le_trans h3 hpble
  by_cases hph : s.phase = Phase.showdown
  · simp only [aiStep, hph, eq_self_iff_true, if_true]
    exact hS
  · simp only [aiStep]
    rw [if_neg hph]
    split_ifs with hfacing hpolicy hclose hraise hclose2
    · -- facing a bet, the AI calls and the bets match: round closes
      exact inv_nextPhase (ai_call_inv hS hfacing) hclose hho
    · exact ai_call_inv hS hfacing
    · -- facing a bet, weak hand and low draw: the AI folds
      exact inv_endHand Winner.player hS
    · -- not facing a bet, the AI raises by 20
      have haieq : s.currentBet = s.aiBet := le_antisymm (not_lt.mp hfacing) hable
      obtain ⟨kk, hkk⟩ := h12 hho
      refine ⟨h1, ?_, h3, ?_, ?_, h6, ?_, ?_, ?_, h10, ?_, fun _ => ⟨kk, ?_⟩⟩
      · show 0 ≤ s.pot + (s.currentBet - s.aiBet + 20)
        linarith
      · show 0 ≤ s.aiBet + (s.currentBet - s.aiBet + 20)
        linarith
      · show s.aiBet + (s.currentBet - s.aiBet + 20) =
          max s.playerBet (s.aiBet + (s.currentBet - s.aiBet + 20))
        exact (max_eq_right (by linarith)).symm
      · exact h7.sub ((h9.sub h11).add ⟨20, by show (20 : ℚ) = ((20 : ℤ) : ℚ); norm_num⟩)
      · exact h8.add ((h9.sub h11).add ⟨20, by show (20 : ℚ) = ((20 : ℤ) : ℚ); norm_num⟩)
      · exact h11.add ((h9.sub h11).add ⟨20, by show (20 : ℚ) = ((20 : ℤ) : ℚ); norm_num⟩)
      · exact h11.add ((h9.sub h11).add ⟨20, by show (20 : ℚ) = ((20 : ℤ) : ℚ); norm_num⟩)
      · show s.pot + (s.currentBet - s.aiBet + 20) - s.playerBet -
          (s.aiBet + (s.currentBet - s.aiBet + 20)) = 2 * (kk : ℚ)
        linarith
    · -- not facing a bet, the AI checks and the bets match: round closes
      exact inv_nextPhase hS hclose2 hho
    · exact hS

/-- The blinds posted by `startHand` satisfy the engine invariant for any
whole-number non-negative starting stack. -/
theorem inv_startHand (p0 : ℚ) (d : List Card) (hi : IsIntQ p0) (hp : 0 ≤ p0) :
    Inv (startHand p0 d) := by
  have hminle : min p0 10 ≤ p0 := min_le_left _ _
  have hminnn : 0 ≤ min p0 10 := le_min hp (by norm_num)
  have hminle10 : min p0 10 ≤ 10 := min_le_right _ _
  have haBlind : min (1000000 : ℚ) 20 = 20 := min_eq_right (by norm_num)
  have hten : IsIntQ (10 : ℚ) := ⟨10, by norm_num⟩
  simp only [startHand]
  refine ⟨?_, ?_, ?_, ?_, ?_, ?_, ?_, ?_, ?_, ?_, ?_, fun _ => ⟨0, ?_⟩⟩
  · show 0 ≤ p0 - min p0 10
    linarith
  · show 0 ≤ min p0 10 + min (1000000 : ℚ) 20
    rw [haBlind]
    linarith
  · exact hminnn
  · show 0 ≤ min (1000000 : ℚ) 20
    rw [haBlind]
    norm_num
  · show (20 : ℚ) = max (min p0 10) (min (1000000 : ℚ) 20)
    rw [haBlind]
    exact (max_eq_right (by linarith)).symm
  · exact hi.sub (hi.min hten)
  · show IsIntQ (1000000 - min (1000000 : ℚ) 20)
    rw [haBlind]
    exact ⟨999980, by norm_num⟩
  · show IsIntQ (min p0 10 + min (1000000 : ℚ) 20)
    rw [haBlind]
    exact (hi.min hten).add ⟨20, by norm_num⟩
  · exact ⟨20, by norm_num⟩
  · exact hi.min hten
  · show IsIntQ (min (1000000 : ℚ) 20)
    rw [haBlind]
    exact ⟨20, by norm_num⟩
  · show min p0 10 + min (1000000 : ℚ) 20 - min p0 10 - min (1000000 : ℚ) 20 =
      2 * ((0 : ℤ) : ℚ)
    push_cast
    ring

/-- Every engine step preserves the invariant. -/
theorem inv_step {s t : GState} (h : Inv s) (hst : Step s t) : Inv t := by
  cases hst with
  | player a s hleg hho => exact inv_playerAction a h hleg hho
  | opp rand s h1 h2 _ _ => exact inv_aiStep rand h h2

/-- C6 (amended): in every state reachable from the start of a hand with
a whole-number non-negative player stack, the player's stack, the pot
and both per-round bets are non-negative, and every chip quantity —
including the opponent's stack and hence both shares of a showdown tie
split — is a whole number of chips (the pot at a split is always even).
The original claim's non-negativity of the opponent's stack fails: AI
calls and raises are not stack-checked (see the counterexample). -/
theorem c6_invariants_amended :
    ∀ (p0 : ℚ) (d : List Card) (s : GState), IsIntQ p0 → 0 ≤ p0 →
      Reaches (startHand p0 d) s →
      0 ≤ s.playerChips ∧ 0 ≤ s.pot ∧ 0 ≤ s.playerBet ∧ 0 ≤ s.aiBet ∧
      IsIntQ s.playerChips ∧ IsIntQ s.aiChips ∧ IsIntQ s.pot ∧
      IsIntQ s.currentBet ∧ IsIntQ s.playerBet ∧ IsIntQ s.aiBet := by
  intro p0 d s hi hp hr
  have hinv : Inv s := by
    induction hr with
    | refl => exact inv_startHand p0 d hi hp
    | tail hab hbc ih => exact inv_step ih hbc
  exact ⟨hinv.1, hinv.2.1, hinv.2.2.1, hinv.2.2.2.1, hinv.2.2.2.2.2.1,
    hinv.2.2.2.2.2.2.1, hinv.2.2.2.2.2.2.2.1, hinv.2.2.2.2.2.2.2.2.1,
    hinv.2.2.2.2.2.2.2.2.2.1, hinv.2.2.2.2.2.2.2.2.2.2.1⟩

/-- C6 witness: the invariant instantiated at the freshly started
concrete hand itself. -/
theorem c6_witness :
    0 ≤ (startHand 1000 deckA).playerChips ∧ 0 ≤ (startHand 1000 deckA).pot ∧
    0 ≤ (startHand 1000 deckA).playerBet ∧ 0 ≤ (startHand 1000 deckA).aiBet ∧
    IsIntQ (startHand 1000 deckA).playerChips ∧ IsIntQ (startHand 1000 deckA).aiChips ∧
    IsIntQ (startHand 1000 deckA).pot ∧ IsIntQ (startHand 1000 deckA).currentBet ∧
    IsIntQ (startHand 1000 deckA).playerBet ∧ IsIntQ (startHand 1000 deckA).aiBet :=
  c6_invariants_amended 1000 deckA (startHand 1000 deckA) ⟨1000, by norm_num⟩
    (by norm_num) Relation.ReflTransGen.refl

end JPoker